import Mathlib

/-!
Shallow embedding of the Display7Seg library (src/Display7Seg.h): a driver
for multiplexed multi-digit seven-segment LED displays.

The C++ class `Display7Seg<numdigits, havedp, digiton, segmenton>` keeps a
per-digit segment bitmap array `_display`, the index `_curdigit` of the digit
currently energized (out of range = blanked), and writes digit-select and
segment output lines through `digitalWrite`.

The embedding models:
  * the compile-time template parameters as a `Cfg` record;
  * the mutable state (`_display`, `_curdigit`, the static `dummy` of
    `operator[]`, and the last written level of every output line) as `St`;
  * each `digitalWrite` call as an explicit event (`Ev`), so that the order
    of line writes inside an operation is observable;
  * every member function as a Lean function from state to state paired with
    the list of line-write events it performs, translated line by line from
    the source.

Machine integers: `byte` values are naturals reduced mod 256 at the points
where the C++ code converts to `byte`; `unsigned` values are naturals (the
source never exercises unsigned wrap-around in the modelled operations).
-/

namespace Display7Seg

/-- The template parameters of `Display7Seg<numdigits, havedp, digiton,
segmenton>`: number of digits, decimal-point presence, and the output levels
that turn a digit line / segment line on. -/
structure Cfg where
  n : Nat
  havedp : Bool
  digiton : Bool
  segmenton : Bool
deriving DecidableEq, Repr

/-- `_countof(_segmentpins)`: 8 segment lines when the display has decimal
points, otherwise 7. -/
def segCount (c : Cfg) : Nat := if c.havedp then 8 else 7

/-- One `digitalWrite` call: either a digit-select line or a segment line,
identified by its index, written with a boolean level. -/
inductive Ev where
  | dig (i : Nat) (level : Bool)
  | seg (i : Nat) (level : Bool)
deriving DecidableEq, Repr

/-- The mutable state of one `Display7Seg` instance: the `_display` bitmap
array, `_curdigit`, the static `dummy` byte used by `operator[]` for
out-of-range indices, and the current level of each digit-select line and
each segment line (the last level written to it). -/
structure St where
  display : List Nat
  curdigit : Nat
  digLines : List Bool
  segLines : List Bool
  dummy : Nat
deriving DecidableEq, Repr

/-- Effect of one line write on the line levels. -/
def applyEv (s : St) : Ev → St
  | .dig i lvl => { s with digLines := s.digLines.set i lvl }
  | .seg i lvl => { s with segLines := s.segLines.set i lvl }

/-- Effect of a sequence of line writes, first to last. -/
def applyEvs (evs : List Ev) (s : St) : St := evs.foldl applyEv s

/-- Effect of one line write on the digit-select line levels alone. -/
def applyDig (l : List Bool) : Ev → List Bool
  | .dig i lvl => l.set i lvl
  | .seg _ _ => l

/-- Digit-select line levels after a sequence of line writes. -/
def digAfter (l : List Bool) (evs : List Ev) : List Bool := evs.foldl applyDig l

/-- The segment-line writes of `Display7Seg::showDigit`: the loop
`for (i = 0; i < _countof(_segmentpins); i++, b >>= 1)
   digitalWrite(_segmentpins[i], (b & 1) ? segmenton : !segmenton);`. -/
def segWrites (c : Cfg) (b : Nat) : List Ev :=
  (List.range (segCount c)).map
    (fun i => Ev.seg i (if (b >>> i) % 2 = 1 then c.segmenton else !c.segmenton))

/-- The line writes performed by `Display7Seg::showDigit(newdigit)`, in
program order: if the display is not blanked, first turn the current digit
off (when changing digits), then write all segment lines from the new
digit's bitmap (or all off when blanking); finally, if the new digit is in
range, turn its digit line on. -/
def showDigitEvs (c : Cfg) (s : St) (newdigit : Nat) : List Ev :=
  (if s.curdigit < c.n then
    (if newdigit ≠ s.curdigit then [Ev.dig s.curdigit (!c.digiton)] else [])
      ++ segWrites c (if newdigit < c.n then s.display.getD newdigit 0 else 0)
  else [])
    ++ (if newdigit < c.n then [Ev.dig newdigit c.digiton] else [])

/-- `Display7Seg::showDigit(newdigit)`: performs its line writes and then
executes `_curdigit = newdigit` unconditionally.  `_curdigit` is declared
`volatile byte`, so this store narrows the `unsigned` argument mod 256;
the comparisons earlier in the function use the un-narrowed argument. -/
def showDigit (c : Cfg) (s : St) (newdigit : Nat) : St :=
  { applyEvs (showDigitEvs c s newdigit) s with curdigit := newdigit % 256 }

/-- `Display7Seg::show()`: no-op while blanked; otherwise advance to the
next digit (wrapping to 0 after the last) and show it.  The spec calls this
operation `tick()`. -/
def tick (c : Cfg) (s : St) : St × List Ev :=
  if s.curdigit < c.n then
    let nextdigit := s.curdigit + 1
    let nextdigit := if c.n ≤ nextdigit then 0 else nextdigit
    (showDigit c s nextdigit, showDigitEvs c s nextdigit)
  else (s, [])

/-- `Display7Seg::setBlank(onoff)`: `showDigit(onoff ? _countof(_display) : 0)`. -/
def setBlank (c : Cfg) (s : St) (onoff : Bool) : St × List Ev :=
  let t := if onoff then c.n else 0
  (showDigit c s t, showDigitEvs c s t)

/-- `Display7Seg::isBlank()`: `_curdigit >= _countof(_display)`. -/
def isBlank (c : Cfg) (s : St) : Bool := decide (c.n ≤ s.curdigit)

/-- `Display7Seg::setSegments(index, bitmap, show)`: when `index` is in
range, store the bitmap (a `byte`) and, when `show` is requested,
immediately show that digit; otherwise do nothing. -/
def setSegments (c : Cfg) (s : St) (index bitmap : Nat) (sh : Bool) :
    St × List Ev :=
  if index < c.n then
    let s' := { s with display := s.display.set index (bitmap % 256) }
    if sh then (showDigit c s' index, showDigitEvs c s' index) else (s', [])
  else (s, [])

/-- The 16-entry `static const byte table[16]` of `Display7Seg::setNumber`:
segment patterns for the glyphs 0-9, A-F. -/
def segTable : List Nat :=
  [0x3F, 0x06, 0x5B, 0x4F, 0x66, 0x6D, 0x7D, 0x07,
   0x7F, 0x6F, 0x77, 0x7C, 0x39, 0x5E, 0x79, 0x71]

/-- `Display7Seg::setNumber(index, num, dp, show)`: guarded by
`index < _countof(_digitpins) && num <= 16`; on success delegates
`table[num] | (dp ? B10000000 : 0)` to `setSegments`.  Note the guard
admits `num == 16` although the table has entries 0..15 only; the C++
lookup `table[16]` is then an out-of-bounds read (undefined behavior).
The embedding uses `List.getD` with default 0 as a stand-in at that one
input; no theorem below about in-range behavior relies on it. -/
def setNumber (c : Cfg) (s : St) (index num : Nat) (dp sh : Bool) :
    St × List Ev :=
  if index < c.n ∧ num ≤ 16 then
    setSegments c s index (segTable.getD num 0 |||
      (if dp then 128 else 0)) sh
  else (s, [])

/-- The loop of `Display7Seg::setValue`, counting the loop variable down:
`svLoop c radix lz dppos i value s` runs the remaining iterations for
positions `i-1, i-2, ..., 0` (the source iterates
`for (unsigned i = _countof(_display); i-- > 0;)`), returning the final
state, the final `value`, and the accumulated line-write events.
Each iteration computes `byte v = value % radix`, writes either the digit
glyph (via `setNumber(i, v, dppos == i)`) or, when suppressing a leading
zero, an all-off pattern (via `setSegments`), then divides `value` by the
radix. -/
def svLoop (c : Cfg) (radix : Nat) (lz : Bool) (dppos : Nat) :
    Nat → Nat → St → St × Nat × List Ev
  | 0, value, s => (s, value, [])
  | i + 1, value, s =>
    let v := value % radix % 256
    let r1 :=
      if v ≠ 0 ∨ value ≠ 0 ∨ lz = true ∨ dppos ≤ i ∨ i = c.n - 1 then
        setNumber c s i v (decide (dppos = i)) false
      else
        setSegments c s i (if dppos = i then 128 else 0) false
    let r2 := svLoop c radix lz dppos i (value / radix) r1.1
    (r2.1, r2.2.1, r1.2 ++ r2.2.2)

/-- `Display7Seg::setValue<radix>(value, leadingzero, dppos)`: runs the loop
over all `_countof(_display)` positions and returns `!value` (true exactly
when the remaining value is zero). -/
def setValue (c : Cfg) (s : St) (radix value : Nat) (lz : Bool)
    (dppos : Nat) : (St × Bool) × List Ev :=
  let r := svLoop c radix lz dppos c.n value s
  ((r.1, decide (r.2.1 = 0)), r.2.2)

/-- The constructor `Display7Seg::Display7Seg()`: zeroes every `_display`
entry and nothing else.  In particular `_curdigit` is **not** assigned, so
it keeps whatever value its storage held before the constructor ran; the
parameter `mem` models that pre-existing storage content. -/
def construct (c : Cfg) (mem : St) : St :=
  { mem with display := List.replicate c.n 0 }

/-- The line writes of `Display7Seg::begin`: every digit line and every
segment line is driven to its inactive level. -/
def beginEvs (c : Cfg) : List Ev :=
  (List.range c.n).map (fun i => Ev.dig i (!c.digiton))
    ++ (List.range (segCount c)).map (fun i => Ev.seg i (!c.segmenton))

/-- `Display7Seg::begin(digitpins, segmentpins, blank)`: configures every
line as an output driven inactive, then calls `setBlank(blank)`.  The pin
number arrays only rename lines and are abstracted away: lines are
identified by their index. -/
def beginOp (c : Cfg) (s : St) (blank : Bool) : St × List Ev :=
  let s1 := applyEvs (beginEvs c) s
  let r := setBlank c s1 blank
  (r.1, beginEvs c ++ r.2)

/-- Reading through `Display7Seg::operator[](index)`: the referenced byte is
`_display[index]` when the index is in range, otherwise the static `dummy`. -/
def bufRead (c : Cfg) (s : St) (index : Nat) : Nat :=
  if index < c.n then s.display.getD index 0 else s.dummy

/-- Writing a byte through `Display7Seg::operator[](index)`: stores into
`_display[index]` when the index is in range, otherwise into the static
`dummy`. -/
def bufWrite (c : Cfg) (s : St) (index b : Nat) : St :=
  if index < c.n then { s with display := s.display.set index (b % 256) }
  else { s with dummy := b % 256 }

/-- The public operations of the class, for reasoning about arbitrary call
sequences. -/
inductive PubOp where
  | bind (blank : Bool)
  | tick
  | blank (onoff : Bool)
  | segs (index bitmap : Nat) (sh : Bool)
  | num (index value : Nat) (dp sh : Bool)
  | value (radix v : Nat) (lz : Bool) (dppos : Nat)
  | store (index b : Nat)
deriving DecidableEq, Repr

/-- Run one public operation, returning the new state and the line writes it
performed, in order. -/
def runOp (c : Cfg) (s : St) : PubOp → St × List Ev
  | .bind b => beginOp c s b
  | .tick => tick c s
  | .blank b => setBlank c s b
  | .segs i b sh => setSegments c s i b sh
  | .num i v dp sh => setNumber c s i v dp sh
  | .value r v lz dp =>
    let x := setValue c s r v lz dp
    (x.1.1, x.2)
  | .store i b => (bufWrite c s i b, [])

/-- Run a sequence of public operations, concatenating their line writes. -/
def runOps (c : Cfg) (s : St) : List PubOp → St × List Ev
  | [] => (s, [])
  | op :: ops =>
    let r1 := runOp c s op
    let r2 := runOps c r1.1 ops
    (r2.1, r1.2 ++ r2.2)

/-- Iterated `show()` (tick): the state after `k` consecutive tick calls. -/
def ticks (c : Cfg) (s : St) : Nat → St
  | 0 => s
  | k + 1 => (tick c (ticks c s k)).1

/-- Whether an event writes a segment line (as opposed to a digit line). -/
def Ev.isSeg : Ev → Bool
  | .seg _ _ => true
  | .dig _ _ => false

/-- The per-position byte that `setValue`'s loop stores at position `j` when
the remaining value (current digit included) is `w`: the all-off /
decimal-point-only pattern when the zero is suppressed, otherwise the glyph
of the digit `w % radix` with the decimal-point bit ORed in at `dppos`. -/
def svEntry (c : Cfg) (radix : Nat) (lz : Bool) (dppos : Nat) (w j : Nat) :
    Nat :=
  if w = 0 ∧ lz = false ∧ j < dppos ∧ j ≠ c.n - 1 then
    (if dppos = j then 128 else 0)
  else
    segTable.getD (w % radix) 0 ||| (if dppos = j then 128 else 0)

/-- A 4-digit display without decimal points, active-high. -/
def cfgEx : Cfg := ⟨4, false, true, true⟩

/-- A 1-digit display without decimal points, active-high. -/
def cfg1 : Cfg := ⟨1, false, true, true⟩

/-- A well-formed blanked state of `cfgEx` with a cleared buffer. -/
def stBlank : St :=
  ⟨[0, 0, 0, 0], 4, [false, false, false, false],
    List.replicate 7 false, 0⟩

/-- A well-formed state of `cfgEx` currently showing digit 0. -/
def stShown : St :=
  ⟨[1, 2, 3, 4], 0, [true, false, false, false],
    List.replicate 7 false, 0⟩

/-- Pre-construction storage contents with `_curdigit` holding 5. -/
def memEx : St := ⟨[9, 9, 9, 9], 5, [], [], 0⟩

/-- A well-formed blanked 1-digit state whose buffer byte is 37. -/
def st1a : St := ⟨[37], 1, [false], List.replicate 7 false, 0⟩

/-- A well-formed blanked 1-digit state whose buffer byte is 5. -/
def st1b : St := ⟨[5], 1, [false], List.replicate 7 false, 0⟩

/-- A 256-digit display without decimal points, active-high.  256 is the
first digit count at which the byte-sized `_curdigit` cannot hold the
blanked sentinel value `_countof(_display)`. -/
def cfg256 : Cfg := ⟨256, false, true, true⟩

/-- A 257-digit display without decimal points, active-high. -/
def cfg257 : Cfg := ⟨257, false, true, true⟩

/-- A well-formed state of `cfg256` currently showing digit 5. -/
def stC7 : St :=
  ⟨List.replicate 256 0, 5, (List.replicate 256 false).set 5 true,
    List.replicate 7 false, 0⟩

/-- A well-formed state of `cfg257` currently showing digit 255. -/
def st257 : St :=
  ⟨List.replicate 257 0, 255, (List.replicate 257 false).set 255 true,
    List.replicate 7 false, 0⟩

/-- Well-formedness: the arrays have their declared C++ lengths. -/
@[reducible] def Wf (c : Cfg) (s : St) : Prop :=
  s.display.length = c.n ∧ s.digLines.length = c.n ∧
    s.segLines.length = segCount c

/-- Digit-select line `i` is currently driven at its active level. -/
@[reducible] def activeL (c : Cfg) (l : List Bool) (i : Nat) : Prop :=
  l.getD i (!c.digiton) = c.digiton

/-- The electrical invariant maintained by the driver: any digit line that
is driven active belongs to the digit recorded in `_curdigit`. -/
@[reducible] def Inv (c : Cfg) (s : St) : Prop :=
  ∀ i < s.digLines.length, activeL c s.digLines i → i = s.curdigit

/-- At most one digit-select line is driven at its active level. -/
def AMO (c : Cfg) (l : List Bool) : Prop :=
  ∀ i < l.length, ∀ j < l.length, activeL c l i → activeL c l j → i = j

/-- No digit-select line is driven at its active level. -/
def NoneActive (c : Cfg) (l : List Bool) : Prop :=
  ∀ i < l.length, ¬ activeL c l i

/-- Every active digit-select line is line `k`. -/
def OnlyAt (c : Cfg) (l : List Bool) (k : Nat) : Prop :=
  ∀ i < l.length, activeL c l i → i = k

/-- A line write that can never light a second digit: any segment write, or
a digit write at the inactive level. -/
def SafeEv (c : Cfg) : Ev → Prop
  | .dig _ lvl => lvl = !c.digiton
  | .seg _ _ => True

/-! ## Basic list and event lemmas -/

theorem getD_set_self {α : Type} (l : List α) (i : Nat) (a d : α)
    (h : i < l.length) : (l.set i a).getD i d = a := by
  induction l generalizing i with
  | nil => simp at h
  | cons x t ih =>
    cases i with
    | zero => rfl
    | succ n => simpa using ih n (by simpa using h)

theorem getD_set_ne {α : Type} (l : List α) (i j : Nat) (a d : α)
    (h : i ≠ j) : (l.set i a).getD j d = l.getD j d := by
  induction l generalizing i j with
  | nil => rfl
  | cons x t ih =>
    cases i with
    | zero =>
      cases j with
      | zero => exact absurd rfl h
      | succ m => rfl
    | succ n =>
      cases j with
      | zero => rfl
      | succ m => simpa using ih n m (by omega)

theorem prefix_append_split {α : Type} (a : List α) {b p : List α}
    (h : p <+: a ++ b) : p <+: a ∨ ∃ q, q <+: b ∧ p = a ++ q := by
  induction a generalizing p with
  | nil => exact Or.inr ⟨p, by simpa using h, rfl⟩
  | cons x a ih =>
    cases p with
    | nil => exact Or.inl List.nil_prefix
    | cons y p =>
      obtain ⟨t, ht⟩ := h
      have ht' : y :: (p ++ t) = x :: (a ++ b) := by simpa using ht
      have hx : y = x := by injection ht'
      have hrest : p ++ t = a ++ b := by injection ht'
      subst hx
      rcases ih ⟨t, hrest⟩ with hq | ⟨q, hq, rfl⟩
      · obtain ⟨u, hu⟩ := hq
        exact Or.inl ⟨u, by simp [hu]⟩
      · exact Or.inr ⟨q, hq, rfl⟩

theorem prefix_singleton {α : Type} {x : α} {p : List α}
    (h : p <+: [x]) : p = [] ∨ p = [x] := by
  cases p with
  | nil => exact Or.inl rfl
  | cons y q =>
    obtain ⟨t, ht⟩ := h
    have ht' : y :: (q ++ t) = [x] := by simpa using ht
    have hx : y = x := by injection ht'
    have h2 : q ++ t = [] := by injection ht'
    have hq : q = [] := by
      cases q with
      | nil => rfl
      | cons _ _ => simp at h2
    subst hx; subst hq; exact Or.inr rfl

@[simp] theorem applyEv_display (s : St) (e : Ev) :
    (applyEv s e).display = s.display := by cases e <;> rfl

@[simp] theorem applyEv_curdigit (s : St) (e : Ev) :
    (applyEv s e).curdigit = s.curdigit := by cases e <;> rfl

@[simp] theorem applyEv_dummy (s : St) (e : Ev) :
    (applyEv s e).dummy = s.dummy := by cases e <;> rfl

@[simp] theorem applyEvs_display (evs : List Ev) (s : St) :
    (applyEvs evs s).display = s.display := by
  induction evs generalizing s with
  | nil => rfl
  | cons e evs ih => simp [applyEvs, List.foldl_cons] at ih ⊢; simp [ih]

@[simp] theorem applyEvs_curdigit (evs : List Ev) (s : St) :
    (applyEvs evs s).curdigit = s.curdigit := by
  induction evs generalizing s with
  | nil => rfl
  | cons e evs ih => simp [applyEvs, List.foldl_cons] at ih ⊢; simp [ih]

@[simp] theorem applyEvs_dummy (evs : List Ev) (s : St) :
    (applyEvs evs s).dummy = s.dummy := by
  induction evs generalizing s with
  | nil => rfl
  | cons e evs ih => simp [applyEvs, List.foldl_cons] at ih ⊢; simp [ih]

theorem applyEvs_append (a b : List Ev) (s : St) :
    applyEvs (a ++ b) s = applyEvs b (applyEvs a s) := by
  simp [applyEvs, List.foldl_append]

theorem applyEvs_digLines (evs : List Ev) (s : St) :
    (applyEvs evs s).digLines = digAfter s.digLines evs := by
  induction evs generalizing s with
  | nil => rfl
  | cons e evs ih =>
    have he : (applyEv s e).digLines = applyDig s.digLines e := by
      cases e <;> rfl
    simp [applyEvs, digAfter, List.foldl_cons] at ih ⊢
    rw [ih, he]

theorem digAfter_append (l : List Bool) (a b : List Ev) :
    digAfter l (a ++ b) = digAfter (digAfter l a) b := by
  simp [digAfter, List.foldl_append]

theorem digAfter_seg_only (evs : List Ev) (l : List Bool)
    (h : ∀ e ∈ evs, e.isSeg = true) : digAfter l evs = l := by
  induction evs generalizing l with
  | nil => rfl
  | cons e evs ih =>
    cases e with
    | dig i lvl =>
      exact absurd (h _ (List.mem_cons_self _ _)) (by simp [Ev.isSeg])
    | seg i lvl =>
      simp [digAfter, List.foldl_cons, applyDig] at ih ⊢
      exact ih l fun e he => h e (List.mem_cons_of_mem _ he)

theorem segWrites_seg_only (c : Cfg) (b : Nat) :
    ∀ e ∈ segWrites c b, e.isSeg = true := by
  intro e he
  simp [segWrites, List.mem_map] at he
  obtain ⟨i, _, rfl⟩ := he
  rfl

theorem digAfter_length (l : List Bool) (evs : List Ev) :
    (digAfter l evs).length = l.length := by
  induction evs generalizing l with
  | nil => rfl
  | cons e evs ih =>
    have he : (applyDig l e).length = l.length := by
      cases e <;> simp [applyDig]
    simp [digAfter, List.foldl_cons] at ih ⊢
    rw [ih, he]

@[simp] theorem showDigit_curdigit (c : Cfg) (s : St) (nd : Nat) :
    (showDigit c s nd).curdigit = nd % 256 := rfl

@[simp] theorem showDigit_display (c : Cfg) (s : St) (nd : Nat) :
    (showDigit c s nd).display = s.display := by
  simp [showDigit]

@[simp] theorem showDigit_dummy (c : Cfg) (s : St) (nd : Nat) :
    (showDigit c s nd).dummy = s.dummy := by
  simp [showDigit]

theorem showDigit_digLines (c : Cfg) (s : St) (nd : Nat) :
    (showDigit c s nd).digLines =
      digAfter s.digLines (showDigitEvs c s nd) := by
  simp [showDigit, applyEvs_digLines]

/-! ## Frame lemmas for the buffer-only operations -/

theorem setSegments_false_frame (c : Cfg) (s : St) (i b : Nat) :
    (setSegments c s i b false).1.curdigit = s.curdigit ∧
    (setSegments c s i b false).1.digLines = s.digLines ∧
    (setSegments c s i b false).1.segLines = s.segLines ∧
    (setSegments c s i b false).1.dummy = s.dummy ∧
    (setSegments c s i b false).2 = [] ∧
    (setSegments c s i b false).1.display.length = s.display.length := by
  by_cases h : i < c.n <;> simp [setSegments, h]

theorem setNumber_false_frame (c : Cfg) (s : St) (i v : Nat) (dp : Bool) :
    (setNumber c s i v dp false).1.curdigit = s.curdigit ∧
    (setNumber c s i v dp false).1.digLines = s.digLines ∧
    (setNumber c s i v dp false).1.segLines = s.segLines ∧
    (setNumber c s i v dp false).1.dummy = s.dummy ∧
    (setNumber c s i v dp false).2 = [] ∧
    (setNumber c s i v dp false).1.display.length = s.display.length := by
  by_cases h : i < c.n ∧ v ≤ 16
  · simp only [setNumber, if_pos h]
    exact setSegments_false_frame c s i _
  · simp [setNumber, h]

theorem svLoop_frame (c : Cfg) (radix : Nat) (lz : Bool) (dppos : Nat) :
    ∀ i value s,
      (svLoop c radix lz dppos i value s).1.curdigit = s.curdigit ∧
      (svLoop c radix lz dppos i value s).1.digLines = s.digLines ∧
      (svLoop c radix lz dppos i value s).1.segLines = s.segLines ∧
      (svLoop c radix lz dppos i value s).1.dummy = s.dummy ∧
      (svLoop c radix lz dppos i value s).2.2 = [] ∧
      (svLoop c radix lz dppos i value s).1.display.length =
        s.display.length := by
  intro i
  induction i with
  | zero => intro value s; exact ⟨rfl, rfl, rfl, rfl, rfl, rfl⟩
  | succ i ih =>
    intro value s
    by_cases hc : value % radix % 256 ≠ 0 ∨ value ≠ 0 ∨ lz = true ∨
        dppos ≤ i ∨ i = c.n - 1
    · obtain ⟨n1, d1, g1, u1, e1, l1⟩ := setNumber_false_frame c s i
        (value % radix % 256) (decide (dppos = i))
      obtain ⟨n2, d2, g2, u2, e2, l2⟩ := ih (value / radix)
        (setNumber c s i (value % radix % 256) (decide (dppos = i)) false).1
      simp only [svLoop, if_pos hc]
      exact ⟨n2.trans n1, d2.trans d1, g2.trans g1, u2.trans u1,
        by simp [e1, e2], l2.trans l1⟩
    · obtain ⟨n1, d1, g1, u1, e1, l1⟩ := setSegments_false_frame c s i
        (if dppos = i then 128 else 0)
      obtain ⟨n2, d2, g2, u2, e2, l2⟩ := ih (value / radix)
        (setSegments c s i (if dppos = i then 128 else 0) false).1
      simp only [svLoop, if_neg hc]
      exact ⟨n2.trans n1, d2.trans d1, g2.trans g1, u2.trans u1,
        by simp [e1, e2], l2.trans l1⟩

/-! ## C10: setValue only mutates the segment buffer -/

/-- C10: `setValue` mutates only the segment buffer: for every value,
radix, leading-zero flag and decimal-point position it performs no line
write (it always passes `show = false` down to `setNumber`/`setSegments`),
and it leaves the cursor, every digit line, every segment line and the
accessor's dummy byte unchanged. -/
theorem C10_setValue_frame (c : Cfg) (s : St) (radix value : Nat)
    (lz : Bool) (dppos : Nat) :
    (setValue c s radix value lz dppos).2 = [] ∧
    (setValue c s radix value lz dppos).1.1.curdigit = s.curdigit ∧
    (setValue c s radix value lz dppos).1.1.digLines = s.digLines ∧
    (setValue c s radix value lz dppos).1.1.segLines = s.segLines ∧
    (setValue c s radix value lz dppos).1.1.dummy = s.dummy := by
  obtain ⟨hc, hd, hs, hu, he, _⟩ := svLoop_frame c radix lz dppos c.n value s
  exact ⟨he, hc, hd, hs, hu⟩

/-! ## C5: the setNumber range check admits the out-of-bounds index 16 -/

/-- C5 (code bug exhibit): `setNumber`'s own range check
`index < _countof(_digitpins) && num <= 16` passes for `num = 16` (here at
index 0 on the 4-digit display), yet 16 is not a valid position of the
16-entry `table` (entries 0..15), so the C++ lookup `table[16]` reads past
the table; values strictly greater than 16 are rejected and `setNumber`
does nothing. -/
theorem C5_table_oob :
    (0 < cfgEx.n ∧ (16 : Nat) ≤ 16) ∧
    segTable.length = 16 ∧ ¬ (16 < segTable.length) ∧
    setNumber cfgEx stBlank 0 17 false false = (stBlank, []) := by decide

/-! ## C7: blank control -/

/-- C7 (amended: digitCount restricted to at most 255, so that the byte
`_curdigit` can hold the sentinel `digitCount`): `setBlank(true)` sets the
cursor to the sentinel `digitCount` and `isBlank()` then reports true;
`setBlank(false)` sets the cursor to 0 whatever it was before, and
`isBlank()` then reports false; and under the cursor invariant
`cursor ≤ digitCount`, `isBlank()` is true exactly when the cursor equals
the sentinel. -/
theorem C7_blank_control (c : Cfg) (s : St) (hn : 1 ≤ c.n)
    (hn255 : c.n ≤ 255) :
    (setBlank c s true).1.curdigit = c.n ∧
    isBlank c (setBlank c s true).1 = true ∧
    (setBlank c s false).1.curdigit = 0 ∧
    isBlank c (setBlank c s false).1 = false ∧
    (s.curdigit ≤ c.n → (isBlank c s = true ↔ s.curdigit = c.n)) := by
  have hcm : c.n % 256 = c.n := Nat.mod_eq_of_lt (by omega)
  refine ⟨?_, ?_, ?_, ?_, ?_⟩
  · show c.n % 256 = c.n
    exact hcm
  · simp [isBlank, setBlank, hcm]
  · show (0 : Nat) % 256 = 0
    rfl
  · simp [isBlank, setBlank]
    omega
  · intro h; simp [isBlank]; omega

/-- Witness for C7 at a concrete display state. -/
theorem C7_blank_control_witness :
    isBlank cfgEx (setBlank cfgEx stShown true).1 = true :=
  (C7_blank_control cfgEx stShown (by decide) (by decide)).2.1

/-- C7 counterexample against the unrestricted claim: on a 256-digit
display the sentinel `_countof(_display) = 256` does not fit in the byte
`_curdigit`; `setBlank(true)` executes `showDigit(256)`, whose final store
narrows 256 to 0, so the cursor reads back 0 — not the sentinel — and
`isBlank()` (`_curdigit >= 256`) returns false: blanking is broken at
exactly this digit count. -/
theorem C7_counterexample :
    (setBlank cfg256 stC7 true).1.curdigit = 0 ∧
    isBlank cfg256 (setBlank cfg256 stC7 true).1 = false ∧
    ¬ ((0 : Nat) = cfg256.n) := by decide

/-! ## C8: out-of-range digit indices are no-ops -/

/-- C8: for every digit index at or beyond `digitCount` and all bitmaps,
numeric values, decimal-point and show flags, `setSegments` and `setNumber`
return the state unchanged (buffer and cursor untouched) and write no
output line. -/
theorem C8_oob_noop (c : Cfg) (s : St) (index bitmap num : Nat)
    (dp sh shb : Bool) (h : c.n ≤ index) :
    setSegments c s index bitmap sh = (s, []) ∧
    setNumber c s index num dp shb = (s, []) := by
  constructor
  · simp only [setSegments]
    rw [if_neg (by omega)]
  · simp only [setNumber]
    rw [if_neg (by rintro ⟨h1, -⟩; omega)]

/-- Witness for C8 at index 7 of the 4-digit display. -/
theorem C8_oob_noop_witness :
    setSegments cfgEx stShown 7 255 true = (stShown, []) ∧
    setNumber cfgEx stShown 7 5 true true = (stShown, []) :=
  C8_oob_noop cfgEx stShown 7 255 5 true true true (by decide)

/-! ## C9: the indexed accessor -/

/-- C9: for an in-range index the accessor designates the buffer entry, so
a bitmap written by `setSegments` reads back identically through it; for an
out-of-range index it designates the separate static dummy byte: writing
through it leaves every buffer entry unchanged, reading returns the dummy,
and the write lands in the dummy. -/
theorem C9_accessor_roundtrip (c : Cfg) (s : St) (i b : Nat)
    (hlen : s.display.length = c.n) :
    (i < c.n → b < 256 → bufRead c (setSegments c s i b false).1 i = b) ∧
    (c.n ≤ i → (bufWrite c s i b).display = s.display ∧
      bufRead c s i = s.dummy ∧ (bufWrite c s i b).dummy = b % 256) := by
  constructor
  · intro hi hb
    have h1 : (setSegments c s i b false).1 =
        { s with display := s.display.set i (b % 256) } := by
      simp [setSegments, hi]
    rw [h1]
    simp only [bufRead, if_pos hi]
    rw [getD_set_self _ _ _ _ (by omega)]
    exact Nat.mod_eq_of_lt hb
  · intro hle
    have hni : ¬ i < c.n := by omega
    refine ⟨?_, ?_, ?_⟩ <;> simp [bufWrite, bufRead, hni]

/-- Witness for C9: a round trip at index 2 of the 4-digit display. -/
theorem C9_accessor_roundtrip_witness :
    bufRead cfgEx (setSegments cfgEx stShown 2 170 false).1 2 = 170 :=
  (C9_accessor_roundtrip cfgEx stShown 2 170 (by decide)).1 (by decide)
    (by decide)

/-! ## C6: the cursor range invariant -/

theorem setBlank_curdigit (c : Cfg) (s : St) (b : Bool) :
    (setBlank c s b).1.curdigit = (if b then c.n else 0) % 256 := by
  cases b <;> rfl

theorem beginOp_curdigit (c : Cfg) (s : St) (b : Bool) :
    (beginOp c s b).1.curdigit = (if b then c.n else 0) % 256 := by
  cases b <;> rfl

theorem tick_curdigit_le (c : Cfg) (s : St) (h : s.curdigit ≤ c.n) :
    (tick c s).1.curdigit ≤ c.n := by
  by_cases hc : s.curdigit < c.n
  · simp only [tick, if_pos hc, showDigit_curdigit]
    split <;> omega
  · simp only [tick, if_neg hc]
    exact h

theorem setSegments_curdigit_le (c : Cfg) (s : St) (i b : Nat) (sh : Bool)
    (h : s.curdigit ≤ c.n) : (setSegments c s i b sh).1.curdigit ≤ c.n := by
  by_cases hi : i < c.n
  · cases sh
    · simpa [setSegments, hi] using h
    · simp [setSegments, hi]; omega
  · simpa [setSegments, hi] using h

theorem runOp_curdigit_le (c : Cfg) (s : St) (op : PubOp)
    (h : s.curdigit ≤ c.n) : (runOp c s op).1.curdigit ≤ c.n := by
  cases op with
  | bind b => rw [show (runOp c s (.bind b)).1 = (beginOp c s b).1 from rfl,
      beginOp_curdigit]; split <;> omega
  | tick => exact tick_curdigit_le c s h
  | blank b => rw [show (runOp c s (.blank b)).1 = (setBlank c s b).1 from rfl,
      setBlank_curdigit]; split <;> omega
  | segs i b sh => exact setSegments_curdigit_le c s i b sh h
  | num i v dp sh =>
    show (setNumber c s i v dp sh).1.curdigit ≤ c.n
    by_cases hg : i < c.n ∧ v ≤ 16
    · simp only [setNumber, if_pos hg]
      exact setSegments_curdigit_le c s i _ sh h
    · simpa [setNumber, hg] using h
  | value r v lz dp =>
    obtain ⟨hc1, -, -, -, -, -⟩ := svLoop_frame c r lz dp c.n v s
    show (svLoop c r lz dp c.n v s).1.curdigit ≤ c.n
    rw [hc1]
    exact h
  | store i b =>
    show (bufWrite c s i b).curdigit ≤ c.n
    by_cases hi : i < c.n <;> simpa [bufWrite, hi] using h

/-- C6 (amended): after construction every buffer entry is 0, but the
constructor does not assign the cursor — it keeps the storage's prior
value (`mem.curdigit`); every public operation preserves the invariant
`cursor ≤ digitCount` (the byte store `_curdigit = newdigit` only ever
narrows an in-range value, and `x % 256 ≤ x`), and `begin` (which ends in
`setBlank`) establishes `cursor ≤ digitCount` from any prior cursor
value. -/
theorem C6_cursor_invariant (c : Cfg) (mem : St) :
    (construct c mem).display = List.replicate c.n 0 ∧
    (construct c mem).curdigit = mem.curdigit ∧
    (∀ s op, s.curdigit ≤ c.n → (runOp c s op).1.curdigit ≤ c.n) ∧
    (∀ s b, (beginOp c s b).1.curdigit ≤ c.n) := by
  refine ⟨rfl, rfl, fun s op h => runOp_curdigit_le c s op h, fun s b => ?_⟩
  rw [beginOp_curdigit]; split <;> omega

/-- Witness for C6: one preserved step from a concrete in-range state. -/
theorem C6_cursor_invariant_witness :
    (runOp cfgEx stShown PubOp.tick).1.curdigit ≤ cfgEx.n :=
  (C6_cursor_invariant cfgEx memEx).2.2.1 stShown PubOp.tick (by decide)

/-- C6 counterexample: the constructor only zeroes `_display`; it never
writes `_curdigit`, so immediately after construction the cursor holds
whatever the storage held before (here 5 on a 4-digit display), not the
blanked sentinel `digitCount = 4`. -/
theorem C6_counterexample :
    (construct cfgEx memEx).curdigit = 5 ∧
    ((construct cfgEx memEx).curdigit = cfgEx.n → False) := by decide

/-! ## C3: the tick cycle -/

theorem tick_curdigit_formula (c : Cfg) (s : St) (h : s.curdigit < c.n)
    (hn : c.n ≤ 256) :
    (tick c s).1.curdigit = (s.curdigit + 1) % c.n := by
  simp only [tick, if_pos h, showDigit_curdigit]
  by_cases h2 : c.n ≤ s.curdigit + 1
  · rw [if_pos h2]
    have he : s.curdigit + 1 = c.n := by omega
    rw [he, Nat.mod_self, Nat.zero_mod]
  · have hb : s.curdigit + 1 < 256 := by omega
    have hc2 : s.curdigit + 1 < c.n := by omega
    rw [if_neg h2, Nat.mod_eq_of_lt hb, Nat.mod_eq_of_lt hc2]

theorem ticks_curdigit (c : Cfg) (s : St) (h : s.curdigit < c.n)
    (hn : c.n ≤ 256) :
    ∀ k, (ticks c s k).curdigit = (s.curdigit + k) % c.n := by
  intro k
  induction k with
  | zero => rw [Nat.add_zero, Nat.mod_eq_of_lt h]; rfl
  | succ k ih =>
    have hn0 : 0 < c.n := by omega
    have hk : (ticks c s k).curdigit < c.n := by
      rw [ih]; exact Nat.mod_lt _ hn0
    show (tick c (ticks c s k)).1.curdigit = _
    rw [tick_curdigit_formula c _ hk hn, ih, Nat.mod_add_mod, Nat.add_assoc]

/-- C3 (amended: digitCount restricted to at most 256, so that the byte
store into `_curdigit` never wraps an in-range digit index): while
blanked, `tick` changes nothing at all (state and lines); otherwise it
shows the digit `(cursor + 1) mod digitCount`, so the cursor after `k`
ticks is `(cursor + k) mod digitCount`: `digitCount` consecutive ticks
visit every digit exactly once in cyclic left-to-right order, returning
to the starting cursor, and the `(digitCount+1)`-th tick shows the same
digit as the first again. -/
theorem C3_tick_cycle (c : Cfg) (s : St) :
    (c.n ≤ s.curdigit → tick c s = (s, [])) ∧
    (s.curdigit < c.n → c.n ≤ 256 →
      tick c s = (showDigit c s ((s.curdigit + 1) % c.n),
        showDigitEvs c s ((s.curdigit + 1) % c.n)) ∧
      (∀ k, (ticks c s k).curdigit = (s.curdigit + k) % c.n) ∧
      (∀ j k, 1 ≤ j → j ≤ c.n → 1 ≤ k → k ≤ c.n →
        (ticks c s j).curdigit = (ticks c s k).curdigit → j = k) ∧
      (∀ d < c.n, ∃ k, 1 ≤ k ∧ k ≤ c.n ∧ (ticks c s k).curdigit = d) ∧
      (ticks c s c.n).curdigit = s.curdigit ∧
      (ticks c s (c.n + 1)).curdigit = (ticks c s 1).curdigit) := by
  constructor
  · intro h
    simp only [tick, if_neg (by omega : ¬ s.curdigit < c.n)]
  · intro h hn
    refine ⟨?_, ticks_curdigit c s h hn, ?_, ?_, ?_, ?_⟩
    · by_cases h2 : c.n ≤ s.curdigit + 1
      · have he : (s.curdigit + 1) % c.n = 0 := by
          have h3 : s.curdigit + 1 = c.n := by omega
          rw [h3, Nat.mod_self]
        simp only [tick, if_pos h, if_pos h2, he]
      · have he : (s.curdigit + 1) % c.n = s.curdigit + 1 :=
          Nat.mod_eq_of_lt (by omega)
        simp only [tick, if_pos h, if_neg h2, he]
    · intro j k h1j hjn h1k hkn he
      rw [ticks_curdigit c s h hn j, ticks_curdigit c s h hn k] at he
      have h1 : Nat.ModEq c.n (s.curdigit + j) (s.curdigit + k) := he
      have hmod : j % c.n = k % c.n := Nat.ModEq.add_left_cancel' s.curdigit h1
      rcases Nat.lt_or_ge j c.n with hj | hj
      · rcases Nat.lt_or_ge k c.n with hk2 | hk2
        · rwa [Nat.mod_eq_of_lt hj, Nat.mod_eq_of_lt hk2] at hmod
        · have hk3 : k = c.n := by omega
          rw [Nat.mod_eq_of_lt hj, hk3, Nat.mod_self] at hmod
          omega
      · have hj3 : j = c.n := by omega
        rcases Nat.lt_or_ge k c.n with hk2 | hk2
        · rw [hj3, Nat.mod_self, Nat.mod_eq_of_lt hk2] at hmod
          omega
        · omega
    · intro d hd
      by_cases hdc : s.curdigit < d
      · refine ⟨d - s.curdigit, by omega, by omega, ?_⟩
        rw [ticks_curdigit c s h hn]
        have h3 : s.curdigit + (d - s.curdigit) = d := by omega
        rw [h3, Nat.mod_eq_of_lt hd]
      · refine ⟨c.n + d - s.curdigit, by omega, by omega, ?_⟩
        rw [ticks_curdigit c s h hn]
        have h3 : s.curdigit + (c.n + d - s.curdigit) = c.n + d := by omega
        rw [h3, Nat.add_mod_left, Nat.mod_eq_of_lt hd]
    · rw [ticks_curdigit c s h hn, Nat.add_mod_right, Nat.mod_eq_of_lt h]
    · rw [ticks_curdigit c s h hn, ticks_curdigit c s h hn]
      have h3 : s.curdigit + (c.n + 1) = (s.curdigit + 1) + c.n := by omega
      rw [h3, Nat.add_mod_right]

/-- Witness for C3: four ticks of the 4-digit display return to digit 0. -/
theorem C3_tick_cycle_witness :
    (ticks cfgEx stShown 4).curdigit = stShown.curdigit :=
  (((C3_tick_cycle cfgEx stShown).2 (by decide) (by decide)).2.2.2.2).1

/-- C3 counterexample against the unrestricted claim: on a 257-digit
display, `tick` from cursor 255 computes `nextdigit = 256` (in range, no
wrap to 0), but `showDigit`'s byte store narrows 256 to 0, so the cursor
becomes 0 instead of `(255 + 1) mod 257 = 256`: the claimed successor
formula — and with it the visit-each-digit-once cycle — fails. -/
theorem C3_counterexample :
    (tick cfg257 st257).1.curdigit = 0 ∧
    ((255 : Nat) + 1) % 257 = 256 ∧ ¬ ((0 : Nat) = 256) := by decide

/-! ## The setValue loop characterization (for C1 and C4) -/

theorem glyph_byte : ∀ v ≤ 15, ∀ (dp : Bool),
    (segTable.getD v 0 ||| (if dp then 128 else 0)) % 256 =
      segTable.getD v 0 ||| (if dp then 128 else 0) := by decide

theorem setSegments_display (c : Cfg) (s : St) (i b : Nat) (hi : i < c.n) :
    (setSegments c s i b false).1.display = s.display.set i (b % 256) := by
  simp [setSegments, hi]

theorem setNumber_display (c : Cfg) (s : St) (i v : Nat) (dp : Bool)
    (hi : i < c.n) (hv : v ≤ 15) :
    (setNumber c s i v dp false).1.display =
      s.display.set i (segTable.getD v 0 ||| (if dp then 128 else 0)) := by
  have hg : i < c.n ∧ v ≤ 16 := ⟨hi, by omega⟩
  simp only [setNumber, if_pos hg]
  rw [setSegments_display c s i _ hi]
  congr 1
  exact glyph_byte v hv dp

/-- The byte stored at position `i` by one iteration of the `setValue`
loop is `svEntry` of the remaining value. -/
theorem svStep_display (c : Cfg) (radix : Nat) (lz : Bool) (dppos : Nat)
    (i value : Nat) (s : St) (hi : i < c.n) (hr1 : 1 ≤ radix)
    (hr2 : radix ≤ 16) :
    ((if value % radix % 256 ≠ 0 ∨ value ≠ 0 ∨ lz = true ∨ dppos ≤ i ∨
        i = c.n - 1 then
      setNumber c s i (value % radix % 256) (decide (dppos = i)) false
    else
      setSegments c s i (if dppos = i then 128 else 0) false).1).display =
    s.display.set i (svEntry c radix lz dppos value i) := by
  have hvlt : value % radix < radix := Nat.mod_lt _ (by omega)
  have hv : value % radix % 256 = value % radix := Nat.mod_eq_of_lt (by omega)
  by_cases hC : value % radix % 256 ≠ 0 ∨ value ≠ 0 ∨ lz = true ∨
      dppos ≤ i ∨ i = c.n - 1
  · rw [if_pos hC]
    have hsup : ¬ (value = 0 ∧ lz = false ∧ i < dppos ∧ i ≠ c.n - 1) := by
      rintro ⟨h0, hlz, hdp, hne⟩
      rcases hC with h | h | h | h | h
      · exact h (by rw [hv, h0, Nat.zero_mod])
      · exact h h0
      · rw [hlz] at h; cases h
      · omega
      · exact hne h
    rw [setNumber_display c s i _ _ hi (by omega)]
    rw [svEntry, if_neg hsup, hv]
    congr 1
    simp [decide_eq_true_eq]
  · rw [if_neg hC]
    push_neg at hC
    obtain ⟨-, h0, hlz, hdp, hne⟩ := hC
    have hsup : value = 0 ∧ lz = false ∧ i < dppos ∧ i ≠ c.n - 1 :=
      ⟨h0, by simpa using hlz, by omega, hne⟩
    rw [setSegments_display c s i _ hi]
    rw [svEntry, if_pos hsup]
    congr 1
    split <;> rfl

/-- The remaining value returned by the `setValue` loop: starting it at
position count `i` divides the value by `radix` exactly `i` times. -/
theorem svLoop_value (c : Cfg) (radix : Nat) (lz : Bool) (dppos : Nat) :
    ∀ i value s,
      (svLoop c radix lz dppos i value s).2.1 = value / radix ^ i := by
  intro i
  induction i with
  | zero =>
    intro value s
    show value = value / radix ^ 0
    rw [pow_zero, Nat.div_one]
  | succ i ih =>
    intro value s
    show (svLoop c radix lz dppos i (value / radix) _).2.1 = _
    rw [ih, Nat.div_div_eq_div_mul, ← pow_succ']

/-- Full characterization of the `setValue` loop for a radix in 2..16 (or
1): afterwards, every position `j` below the starting count `i` holds
`svEntry` of the value as already divided down to position `j`, every other
position is untouched, and the returned value is the input divided `i`
times. -/
theorem svLoop_display (c : Cfg) (radix : Nat) (lz : Bool) (dppos : Nat)
    (hr1 : 1 ≤ radix) (hr2 : radix ≤ 16) :
    ∀ i value s, i ≤ c.n → s.display.length = c.n →
      (∀ j < c.n, (svLoop c radix lz dppos i value s).1.display.getD j 0 =
        if j < i then
          svEntry c radix lz dppos (value / radix ^ (i - 1 - j)) j
        else s.display.getD j 0) ∧
      (svLoop c radix lz dppos i value s).1.display.length = c.n := by
  intro i
  induction i with
  | zero =>
    intro value s _ hlen
    exact ⟨fun j _ => by rw [if_neg (by omega)]; rfl, hlen⟩
  | succ i ih =>
    intro value s hin hlen
    have hi : i < c.n := by omega
    have hstep := svStep_display c radix lz dppos i value s hi hr1 hr2
    set s1 := ((if value % radix % 256 ≠ 0 ∨ value ≠ 0 ∨ lz = true ∨
        dppos ≤ i ∨ i = c.n - 1 then
      setNumber c s i (value % radix % 256) (decide (dppos = i)) false
    else
      setSegments c s i (if dppos = i then 128 else 0) false).1) with hs1
    have hlen1 : s1.display.length = c.n := by
      rw [hstep, List.length_set]
      exact hlen
    obtain ⟨ihd, ihl⟩ := ih (value / radix) s1 (by omega) hlen1
    have h1 : (svLoop c radix lz dppos (i + 1) value s).1 =
        (svLoop c radix lz dppos i (value / radix) s1).1 := by
      rw [hs1]
      rfl
    constructor
    · intro j hj
      rw [h1, ihd j hj]
      by_cases hji : j < i
      · rw [if_pos hji, if_pos (by omega : j < i + 1)]
        rw [Nat.div_div_eq_div_mul, ← pow_succ']
        have he : i - 1 - j + 1 = i + 1 - 1 - j := by omega
        rw [he]
      · by_cases hji2 : j = i
        · subst hji2
          rw [if_neg (by omega), if_pos (by omega : j < j + 1)]
          rw [hstep, getD_set_self _ _ _ _ (by omega)]
          have he : j + 1 - 1 - j = 0 := by omega
          rw [he, pow_zero, Nat.div_one]
        · rw [if_neg hji, if_neg (by omega)]
          rw [hstep, getD_set_ne _ _ _ _ _ (by omega : i ≠ j)]
    · rw [h1]
      exact ihl

/-! ## C1: the digit formatting of setValue -/

/-- C1 (amended: radix restricted to 1..16 so that every digit has a glyph
in the 16-entry encoding table): `setValue` processes positions from
rightmost to leftmost and leaves, at each position `i` of an `n`-digit
display with digit `d = value / radix^(n-1-i) % radix`, the glyph of `d`
with the decimal-point bit set exactly when `i = dppos` — except that when
`d = 0`, the remaining higher-order value `value / radix^(n-i)` is 0,
leading zeros are off, `i < dppos` and `i ≠ n-1`, the position holds the
all-off pattern (with only the decimal-point bit when `i = dppos`). -/
theorem C1_setValue_digits (c : Cfg) (s : St) (radix value dppos : Nat)
    (lz : Bool) (hr1 : 1 ≤ radix) (hr2 : radix ≤ 16)
    (hlen : s.display.length = c.n) :
    ∀ i < c.n,
      (setValue c s radix value lz dppos).1.1.display.getD i 0 =
        if value / radix ^ (c.n - 1 - i) % radix = 0 ∧
            value / radix ^ (c.n - i) = 0 ∧ lz = false ∧ i < dppos ∧
            i ≠ c.n - 1 then
          (if i = dppos then 128 else 0)
        else
          segTable.getD (value / radix ^ (c.n - 1 - i) % radix) 0 |||
            (if i = dppos then 128 else 0) := by
  intro i hi
  obtain ⟨hdisp, -⟩ :=
    svLoop_display c radix lz dppos hr1 hr2 c.n value s (le_refl _) hlen
  have h1 := hdisp i hi
  rw [if_pos hi] at h1
  show (svLoop c radix lz dppos c.n value s).1.display.getD i 0 = _
  rw [h1, svEntry]
  have hexp : c.n - 1 - i + 1 = c.n - i := by omega
  have hich : value / radix ^ (c.n - i) =
      value / radix ^ (c.n - 1 - i) / radix := by
    rw [Nat.div_div_eq_div_mul, ← pow_succ, hexp]
  rw [hich]
  by_cases hsup : value / radix ^ (c.n - 1 - i) = 0 ∧ lz = false ∧
      i < dppos ∧ i ≠ c.n - 1
  · rw [if_pos hsup, if_pos (show _ ∧ _ from
      ⟨by rw [hsup.1, Nat.zero_mod],
        by rw [hsup.1, Nat.zero_div], hsup.2.1, hsup.2.2.1, hsup.2.2.2⟩)]
    exact if_congr eq_comm rfl rfl
  · have hc2 : ¬ (value / radix ^ (c.n - 1 - i) % radix = 0 ∧
        value / radix ^ (c.n - 1 - i) / radix = 0 ∧ lz = false ∧
        i < dppos ∧ i ≠ c.n - 1) := by
      rintro ⟨ha, hb, hrest⟩
      have hdm := Nat.div_add_mod (value / radix ^ (c.n - 1 - i)) radix
      rw [hb, Nat.mul_zero, Nat.zero_add] at hdm
      exact hsup ⟨by rw [← hdm, ha], hrest⟩
    rw [if_neg hsup, if_neg hc2]
    congr 1
    exact if_congr eq_comm rfl rfl

/-- C1 counterexample against the unrestricted claim: with radix 18 the
single digit of value 17 has no glyph (the table has positions 0..15
only), `setNumber` rejects it (`17 > 16`), and the buffer entry is *not*
overwritten with any pattern determined by the digit and `dppos`: it keeps
its stale prior byte, 37 in one run and 5 in the other, although both runs
call `setValue` with identical arguments. -/
theorem C1_counterexample :
    (setValue cfg1 st1a 18 17 false 1).1.1.display.getD 0 0 = 37 ∧
    (setValue cfg1 st1b 18 17 false 1).1.1.display.getD 0 0 = 5 ∧
    ¬ (17 < segTable.length) := by decide

/-- Witness for C1: position 0 of `setValue 1234` on the 4-digit display. -/
theorem C1_setValue_digits_witness :
    (setValue cfgEx stBlank 10 1234 false 4).1.1.display.getD 0 0 =
      if 1234 / 10 ^ (cfgEx.n - 1 - 0) % 10 = 0 ∧
          1234 / 10 ^ (cfgEx.n - 0) = 0 ∧ false = false ∧ 0 < 4 ∧
          0 ≠ cfgEx.n - 1 then
        (if 0 = 4 then 128 else 0)
      else
        segTable.getD (1234 / 10 ^ (cfgEx.n - 1 - 0) % 10) 0 |||
          (if 0 = 4 then 128 else 0) :=
  C1_setValue_digits cfgEx stBlank 10 1234 4 false (by decide) (by decide)
    (by decide) 0 (by decide)

/-! ## C4: the overflow flag of setValue -/

theorem mod_pow_div_mod (value r : Nat) (hr : 1 ≤ r) (k n : Nat)
    (hk : k < n) :
    value % r ^ n / r ^ k % r = value / r ^ k % r := by
  have h0 : 0 < r ^ k := pow_pos (by omega) k
  have key : ∀ a b : Nat, (a + r ^ n * b) / r ^ k % r = a / r ^ k % r := by
    intro a b
    have h1 : r ^ n = r ^ k * r ^ (n - k) := by
      rw [← pow_add]
      congr 1
      omega
    have h2 : r ^ n * b = (r ^ (n - k) * b) * r ^ k := by rw [h1]; ring
    rw [h2, Nat.add_mul_div_right _ _ h0]
    obtain ⟨t, ht⟩ : r ∣ r ^ (n - k) := dvd_pow_self r (by omega : n - k ≠ 0)
    rw [ht, mul_assoc, Nat.add_mul_mod_self_left]
  have h3 := key (value % r ^ n) (value / r ^ n)
  rw [Nat.mod_add_div] at h3
  exact h3.symm

/-- C4 (amended): `setValue` returns true exactly when the value fits,
i.e. `value < radix ^ digitCount` (for any positive radix); and — for a
radix small enough that every digit has a glyph (radix ≤ 16) — when it
returns false the buffer holds the glyphs of the digits of
`value mod radix^digitCount`, the low-order digits, with the
most-significant digits silently lost. -/
theorem C4_setValue_overflow (c : Cfg) (s : St) (radix value dppos : Nat)
    (lz : Bool) (hr1 : 1 ≤ radix) (hlen : s.display.length = c.n) :
    ((setValue c s radix value lz dppos).1.2 = true ↔
      value < radix ^ c.n) ∧
    (radix ≤ 16 → (setValue c s radix value lz dppos).1.2 = false →
      ∀ i < c.n,
        (setValue c s radix value lz dppos).1.1.display.getD i 0 =
          segTable.getD (value % radix ^ c.n / radix ^ (c.n - 1 - i) % radix)
              0 ||| (if i = dppos then 128 else 0)) := by
  have hpow : 0 < radix ^ c.n := pow_pos (by omega) c.n
  have hflag : (setValue c s radix value lz dppos).1.2 =
      decide (value / radix ^ c.n = 0) := by
    show decide ((svLoop c radix lz dppos c.n value s).2.1 = 0) = _
    rw [svLoop_value c radix lz dppos c.n value s]
  constructor
  · rw [hflag]
    simp only [decide_eq_true_eq]
    exact Nat.div_eq_zero_iff hpow
  · intro hr2 hfalse i hi
    have hbig : radix ^ c.n ≤ value := by
      rw [hflag] at hfalse
      simp only [decide_eq_false_iff_not] at hfalse
      rcases Nat.lt_or_ge value (radix ^ c.n) with hlt | hge
      · exact absurd ((Nat.div_eq_zero_iff hpow).2 hlt) hfalse
      · exact hge
    obtain ⟨hdisp, -⟩ :=
      svLoop_display c radix lz dppos hr1 hr2 c.n value s (le_refl _) hlen
    have h1 := hdisp i hi
    rw [if_pos hi] at h1
    show (svLoop c radix lz dppos c.n value s).1.display.getD i 0 = _
    rw [h1, svEntry]
    have hw0 : value / radix ^ (c.n - 1 - i) ≠ 0 := by
      have hle : radix ^ (c.n - 1 - i) ≤ radix ^ c.n :=
        Nat.pow_le_pow_right (by omega) (by omega)
      have h2 : 1 ≤ value / radix ^ (c.n - 1 - i) :=
        (Nat.one_le_div_iff (pow_pos (by omega) _)).2 (by omega)
      omega
    rw [if_neg (by rintro ⟨h0, -⟩; exact hw0 h0)]
    rw [mod_pow_div_mod value radix hr1 _ _ (by omega : c.n - 1 - i < c.n)]
    congr 1
    exact if_congr eq_comm rfl rfl

/-- C4 counterexample against the unrestricted claim: on a 1-digit display
with radix 18 and value 35, `setValue` correctly returns false (35 does
not fit), but the buffer does not hold the digit of `35 mod 18 = 17`: that
digit has no glyph, `setNumber` rejects it, and the entry keeps its stale
prior byte — 37 in one run, 5 in the other, for identical `setValue`
arguments. -/
theorem C4_counterexample :
    (setValue cfg1 st1a 18 35 false 1).1.2 = false ∧
    (setValue cfg1 st1a 18 35 false 1).1.1.display.getD 0 0 = 37 ∧
    (setValue cfg1 st1b 18 35 false 1).1.2 = false ∧
    (setValue cfg1 st1b 18 35 false 1).1.1.display.getD 0 0 = 5 := by decide

/-- Witness for C4: 99999 does not fit in four decimal digits. -/
theorem C4_setValue_overflow_witness :
    (setValue cfgEx stBlank 10 99999 false 4).1.2 = true ↔
      99999 < 10 ^ cfgEx.n :=
  (C4_setValue_overflow cfgEx stBlank 10 99999 4 false (by decide)
    (by decide)).1

/-! ## Digit-line activity lemmas (for C2) -/

theorem activeL_high (c : Cfg) {l : List Bool} {i : Nat}
    (h : l.length ≤ i) : ¬ activeL c l i := by
  rw [activeL, List.getD_eq_default _ _ h]
  simp

theorem activeL_set_off (c : Cfg) {l : List Bool} {k i : Nat}
    (h : activeL c (l.set k (!c.digiton)) i) : activeL c l i ∧ i ≠ k := by
  by_cases hik : i = k
  · subst hik
    exfalso
    rcases Nat.lt_or_ge i l.length with hlt | hge
    · rw [activeL, getD_set_self _ _ _ _ hlt] at h
      simp at h
    · exact activeL_high c (by simpa using hge) h
  · rw [activeL, getD_set_ne _ _ _ _ _ (Ne.symm hik)] at h
    exact ⟨h, hik⟩

theorem activeL_set_on (c : Cfg) {l : List Bool} {k i : Nat}
    (h : activeL c (l.set k c.digiton) i) : i = k ∨ activeL c l i := by
  by_cases hik : i = k
  · exact Or.inl hik
  · rw [activeL, getD_set_ne _ _ _ _ _ (Ne.symm hik)] at h
    exact Or.inr h

theorem AMO_of_OnlyAt {c : Cfg} {l : List Bool} {k : Nat}
    (h : OnlyAt c l k) : AMO c l :=
  fun i hi j hj hai haj => (h i hi hai).trans (h j hj haj).symm

theorem AMO_of_none {c : Cfg} {l : List Bool} (h : NoneActive c l) :
    AMO c l :=
  fun i hi _ _ hai _ => absurd hai (h i hi)

theorem OnlyAt_set_off {c : Cfg} {l : List Bool} {k : Nat}
    (h : OnlyAt c l k) : NoneActive c (l.set k (!c.digiton)) := by
  intro i hi hai
  obtain ⟨hal, hik⟩ := activeL_set_off c hai
  exact hik (h i (by simpa using hi) hal)

theorem NoneActive_set_on {c : Cfg} {l : List Bool} {k : Nat}
    (h : NoneActive c l) : OnlyAt c (l.set k c.digiton) k := by
  intro i hi hai
  rcases activeL_set_on c hai with he | hal
  · exact he
  · exact absurd hal (h i (by simpa using hi))

theorem OnlyAt_set_on_self {c : Cfg} {l : List Bool} {k : Nat}
    (h : OnlyAt c l k) : OnlyAt c (l.set k c.digiton) k := by
  intro i hi hai
  rcases activeL_set_on c hai with he | hal
  · exact he
  · exact h i (by simpa using hi) hal

theorem AMO_set_off {c : Cfg} {l : List Bool} {k : Nat} (h : AMO c l) :
    AMO c (l.set k (!c.digiton)) := by
  intro i hi j hj hai haj
  obtain ⟨hai2, -⟩ := activeL_set_off c hai
  obtain ⟨haj2, -⟩ := activeL_set_off c haj
  exact h i (by simpa using hi) j (by simpa using hj) hai2 haj2

theorem prefix_cons_split {α : Type} {x : α} {l p : List α}
    (h : p <+: x :: l) : p = [] ∨ ∃ q, q <+: l ∧ p = x :: q := by
  cases p with
  | nil => exact Or.inl rfl
  | cons y q =>
    obtain ⟨t, ht⟩ := h
    have ht' : y :: (q ++ t) = x :: l := by simpa using ht
    have hx : y = x := by injection ht'
    have h2 : q ++ t = l := by injection ht'
    subst hx
    exact Or.inr ⟨q, ⟨t, h2⟩, rfl⟩

theorem prefix_nil_eq {α : Type} {p : List α} (h : p <+: ([] : List α)) :
    p = [] := by
  obtain ⟨t, ht⟩ := h
  exact (List.append_eq_nil.mp ht).1

theorem applyDig_safe_active {c : Cfg} {l : List Bool} {e : Ev}
    (he : SafeEv c e) {i : Nat} (h : activeL c (applyDig l e) i) :
    activeL c l i := by
  cases e with
  | dig k lvl =>
    have hlvl : lvl = !c.digiton := he
    rw [show applyDig l (Ev.dig k lvl) = l.set k lvl from rfl, hlvl] at h
    exact (activeL_set_off c h).1
  | seg k lvl => exact h

theorem applyDig_safe_AMO {c : Cfg} {l : List Bool} {e : Ev}
    (he : SafeEv c e) (h : AMO c l) : AMO c (applyDig l e) := by
  cases e with
  | dig k lvl =>
    have hlvl : lvl = !c.digiton := he
    rw [show applyDig l (Ev.dig k lvl) = l.set k lvl from rfl, hlvl]
    exact AMO_set_off h
  | seg k lvl => exact h

theorem safe_prefix_AMO (c : Cfg) :
    ∀ (evs : List Ev) (l : List Bool), (∀ e ∈ evs, SafeEv c e) →
      AMO c l → ∀ p, p <+: evs → AMO c (digAfter l p) := by
  intro evs
  induction evs with
  | nil =>
    intro l _ hA p hp
    rw [prefix_nil_eq hp]
    exact hA
  | cons e evs ih =>
    intro l hsafe hA p hp
    rcases prefix_cons_split hp with rfl | ⟨q, hq, rfl⟩
    · exact hA
    · show AMO c (digAfter (applyDig l e) q)
      exact ih (applyDig l e)
        (fun x hx => hsafe x (List.mem_cons_of_mem _ hx))
        (applyDig_safe_AMO (hsafe e (List.mem_cons_self _ _)) hA) q hq

theorem safe_active_rev (c : Cfg) :
    ∀ (evs : List Ev) (l : List Bool) (i : Nat),
      (∀ e ∈ evs, SafeEv c e) → activeL c (digAfter l evs) i →
        activeL c l i := by
  intro evs
  induction evs with
  | nil => intro l i _ h; exact h
  | cons e evs ih =>
    intro l i hsafe h
    exact applyDig_safe_active (hsafe e (List.mem_cons_self _ _))
      (ih (applyDig l e) i (fun x hx => hsafe x (List.mem_cons_of_mem _ hx))
        h)

theorem beginEvs_safe (c : Cfg) : ∀ e ∈ beginEvs c, SafeEv c e := by
  intro e he
  simp only [beginEvs, List.mem_append, List.mem_map, List.mem_range] at he
  rcases he with ⟨i, -, rfl⟩ | ⟨i, -, rfl⟩
  · exact rfl
  · trivial

theorem applyEvs_segLines_length :
    ∀ (evs : List Ev) (s : St),
      (applyEvs evs s).segLines.length = s.segLines.length := by
  intro evs
  induction evs with
  | nil => intro s; rfl
  | cons e evs ih =>
    intro s
    have he : (applyEv s e).segLines.length = s.segLines.length := by
      cases e <;> simp [applyEv]
    show (applyEvs evs (applyEv s e)).segLines.length = _
    rw [ih (applyEv s e), he]

theorem showDigit_Wf (c : Cfg) (s : St) (nd : Nat) (hwf : Wf c s) :
    Wf c (showDigit c s nd) := by
  obtain ⟨h1, h2, h3⟩ := hwf
  refine ⟨?_, ?_, ?_⟩
  · rw [showDigit_display]; exact h1
  · rw [showDigit_digLines, digAfter_length]; exact h2
  · show (applyEvs (showDigitEvs c s nd) s).segLines.length = _
    rw [applyEvs_segLines_length]; exact h3

theorem Inv_of_same (c : Cfg) {s t : St} (hd : t.digLines = s.digLines)
    (hc : t.curdigit = s.curdigit) (h : Inv c s) : Inv c t := by
  intro i hi hai
  rw [hd] at hi hai
  rw [hc]
  exact h i hi hai

/-- The central electrical lemma: from any well-formed state satisfying
the single-active-digit invariant, every prefix of `showDigit`'s write
sequence leaves at most one digit line active, and the invariant holds
again afterwards. -/
theorem showDigit_safe (c : Cfg) (s : St) (nd : Nat) (hwf : Wf c s)
    (hinv : Inv c s) (hn : c.n ≤ 256) :
    (∀ p, p <+: showDigitEvs c s nd → AMO c (digAfter s.digLines p)) ∧
    Inv c (showDigit c s nd) := by
  have hlen : s.digLines.length = c.n := hwf.2.1
  have honly : OnlyAt c s.digLines s.curdigit := hinv
  by_cases hcur : s.curdigit < c.n
  · by_cases hne : nd ≠ s.curdigit
    · -- changing to a different digit: off-write, segment writes, on-write
      have hevs : showDigitEvs c s nd =
          ([Ev.dig s.curdigit (!c.digiton)] ++
            segWrites c (if nd < c.n then s.display.getD nd 0 else 0)) ++
          (if nd < c.n then [Ev.dig nd c.digiton] else []) := by
        simp only [showDigitEvs, if_pos hcur, if_pos hne]
      have hOffNone :
          NoneActive c (s.digLines.set s.curdigit (!c.digiton)) :=
        OnlyAt_set_off honly
      constructor
      · intro p hp
        rw [hevs] at hp
        rcases prefix_append_split _ hp with hp1 | ⟨q, hq, rfl⟩
        · rcases prefix_append_split _ hp1 with hp2 | ⟨q, hq2, rfl⟩
          · rcases prefix_singleton hp2 with rfl | rfl
            · exact AMO_of_OnlyAt honly
            · exact AMO_of_none hOffNone
          · have hqseg : ∀ e ∈ q, e.isSeg = true :=
              fun e he => segWrites_seg_only c _ e ((hq2.sublist).subset he)
            rw [digAfter_append, digAfter_seg_only q _ hqseg]
            exact AMO_of_none hOffNone
        · by_cases hnd : nd < c.n
          · rw [if_pos hnd] at hq
            rcases prefix_singleton hq with rfl | rfl
            · rw [List.append_nil, digAfter_append,
                digAfter_seg_only _ _ (segWrites_seg_only c _)]
              exact AMO_of_none hOffNone
            · rw [digAfter_append, digAfter_append,
                digAfter_seg_only _ _ (segWrites_seg_only c _)]
              exact AMO_of_OnlyAt (NoneActive_set_on hOffNone)
          · rw [if_neg hnd] at hq
            rw [prefix_nil_eq hq, List.append_nil, digAfter_append,
              digAfter_seg_only _ _ (segWrites_seg_only c _)]
            exact AMO_of_none hOffNone
      · show OnlyAt c (showDigit c s nd).digLines (nd % 256)
        rw [showDigit_digLines, hevs]
        by_cases hnd : nd < c.n
        · rw [Nat.mod_eq_of_lt (show nd < 256 by omega), if_pos hnd,
            if_pos hnd, digAfter_append, digAfter_append,
            digAfter_seg_only _ _ (segWrites_seg_only c _)]
          exact NoneActive_set_on hOffNone
        · rw [if_neg hnd, if_neg hnd, List.append_nil, digAfter_append,
            digAfter_seg_only _ _ (segWrites_seg_only c _)]
          intro i hi hai
          exact absurd hai (hOffNone i hi)
    · -- refreshing the digit already shown
      have hEq : nd = s.curdigit := not_not.mp hne
      have hnd : nd < c.n := by omega
      have honly2 : OnlyAt c s.digLines nd := by rw [hEq]; exact honly
      have hevs : showDigitEvs c s nd =
          segWrites c (s.display.getD nd 0) ++ [Ev.dig nd c.digiton] := by
        simp only [showDigitEvs, if_pos hcur, if_neg hne, if_pos hnd,
          List.nil_append]
      constructor
      · intro p hp
        rw [hevs] at hp
        rcases prefix_append_split _ hp with hp1 | ⟨q, hq, rfl⟩
        · have hqseg : ∀ e ∈ p, e.isSeg = true :=
            fun e he => segWrites_seg_only c _ e ((hp1.sublist).subset he)
          rw [digAfter_seg_only _ _ hqseg]
          exact AMO_of_OnlyAt honly
        · rcases prefix_singleton hq with rfl | rfl
          · rw [List.append_nil,
              digAfter_seg_only _ _ (segWrites_seg_only c _)]
            exact AMO_of_OnlyAt honly
          · rw [digAfter_append,
              digAfter_seg_only _ _ (segWrites_seg_only c _)]
            exact AMO_of_OnlyAt (OnlyAt_set_on_self honly2)
      · show OnlyAt c (showDigit c s nd).digLines (nd % 256)
        rw [Nat.mod_eq_of_lt (show nd < 256 by omega), showDigit_digLines,
          hevs, digAfter_append,
          digAfter_seg_only _ _ (segWrites_seg_only c _)]
        exact OnlyAt_set_on_self honly2
  · -- already blanked: no digit line is active
    have hnone : NoneActive c s.digLines := by
      intro i hi hai
      have hic := honly i hi hai
      have hi' : i < c.n := hlen ▸ hi
      omega
    have hevs : showDigitEvs c s nd =
        (if nd < c.n then [Ev.dig nd c.digiton] else []) := by
      simp only [showDigitEvs, if_neg hcur, List.nil_append]
    constructor
    · intro p hp
      rw [hevs] at hp
      by_cases hnd : nd < c.n
      · rw [if_pos hnd] at hp
        rcases prefix_singleton hp with rfl | rfl
        · exact AMO_of_none hnone
        · exact AMO_of_OnlyAt (NoneActive_set_on hnone)
      · rw [if_neg hnd] at hp
        rw [prefix_nil_eq hp]
        exact AMO_of_none hnone
    · show OnlyAt c (showDigit c s nd).digLines (nd % 256)
      rw [showDigit_digLines, hevs]
      by_cases hnd : nd < c.n
      · rw [Nat.mod_eq_of_lt (show nd < 256 by omega), if_pos hnd]
        exact NoneActive_set_on hnone
      · rw [if_neg hnd]
        intro i hi hai
        exact absurd hai (hnone i hi)

theorem no_events_safe (c : Cfg) (s : St) (hinv : Inv c s) :
    ∀ p, p <+: ([] : List Ev) → AMO c (digAfter s.digLines p) := by
  intro p hp
  rw [prefix_nil_eq hp]
  exact AMO_of_OnlyAt (show OnlyAt c s.digLines s.curdigit from hinv)

/-- The single-active-digit safety package for one `setSegments` call. -/
theorem setSegments_safe (c : Cfg) (s : St) (i bm : Nat) (sh : Bool)
    (hwf : Wf c s) (hinv : Inv c s) (hn : c.n ≤ 256) :
    (∀ p, p <+: (setSegments c s i bm sh).2 →
      AMO c (digAfter s.digLines p)) ∧
    Inv c (setSegments c s i bm sh).1 ∧ Wf c (setSegments c s i bm sh).1 ∧
    (setSegments c s i bm sh).1.digLines =
      digAfter s.digLines (setSegments c s i bm sh).2 := by
  by_cases hi : i < c.n
  · cases sh with
    | false =>
      have h2 : setSegments c s i bm false =
          ({ s with display := s.display.set i (bm % 256) }, []) := by
        simp [setSegments, hi]
      rw [h2]
      exact ⟨no_events_safe c s hinv, Inv_of_same c rfl rfl hinv,
        ⟨by simpa using hwf.1, hwf.2.1, hwf.2.2⟩, rfl⟩
    | true =>
      have hwf' : Wf c { s with display := s.display.set i (bm % 256) } :=
        ⟨by simpa using hwf.1, hwf.2.1, hwf.2.2⟩
      have hinv' : Inv c { s with display := s.display.set i (bm % 256) } :=
        Inv_of_same c rfl rfl hinv
      have h2 : setSegments c s i bm true =
          (showDigit c { s with display := s.display.set i (bm % 256) } i,
            showDigitEvs c { s with display := s.display.set i (bm % 256) }
              i) := by
        simp [setSegments, hi]
      rw [h2]
      have h := showDigit_safe c _ i hwf' hinv' hn
      exact ⟨h.1, h.2, showDigit_Wf c _ _ hwf', showDigit_digLines c _ _⟩
  · have h2 : setSegments c s i bm sh = (s, []) := by
      simp [setSegments, hi]
    rw [h2]
    exact ⟨no_events_safe c s hinv, hinv, hwf, rfl⟩

/-- The single-active-digit safety package for each public operation. -/
theorem runOp_safe (c : Cfg) (s : St) (op : PubOp) (hwf : Wf c s)
    (hinv : Inv c s) (hn : c.n ≤ 256) :
    (∀ p, p <+: (runOp c s op).2 → AMO c (digAfter s.digLines p)) ∧
    Inv c (runOp c s op).1 ∧ Wf c (runOp c s op).1 ∧
    (runOp c s op).1.digLines = digAfter s.digLines (runOp c s op).2 := by
  cases op with
  | bind b =>
    have hs1d : (applyEvs (beginEvs c) s).digLines =
        digAfter s.digLines (beginEvs c) := applyEvs_digLines _ _
    have hwf1 : Wf c (applyEvs (beginEvs c) s) := by
      refine ⟨?_, ?_, ?_⟩
      · rw [applyEvs_display]; exact hwf.1
      · rw [hs1d, digAfter_length]; exact hwf.2.1
      · rw [applyEvs_segLines_length]; exact hwf.2.2
    have hinv1 : Inv c (applyEvs (beginEvs c) s) := by
      intro i hi hai
      rw [hs1d] at hi hai
      rw [digAfter_length] at hi
      have hai2 : activeL c s.digLines i :=
        safe_active_rev c (beginEvs c) s.digLines i (beginEvs_safe c) hai
      rw [applyEvs_curdigit]
      exact hinv i hi hai2
    have h := showDigit_safe c (applyEvs (beginEvs c) s)
      (if b then c.n else 0) hwf1 hinv1 hn
    have h2 : runOp c s (PubOp.bind b) =
        (showDigit c (applyEvs (beginEvs c) s) (if b then c.n else 0),
          beginEvs c ++
            showDigitEvs c (applyEvs (beginEvs c) s)
              (if b then c.n else 0)) := rfl
    rw [h2]
    refine ⟨?_, h.2, showDigit_Wf c _ _ hwf1, ?_⟩
    · intro p hp
      rcases prefix_append_split _ hp with hp1 | ⟨q, hq, rfl⟩
      · exact safe_prefix_AMO c (beginEvs c) s.digLines (beginEvs_safe c)
          (AMO_of_OnlyAt (show OnlyAt c s.digLines s.curdigit from hinv))
          p hp1
      · rw [digAfter_append, ← hs1d]
        exact h.1 q hq
    · rw [showDigit_digLines, digAfter_append, ← hs1d]
  | tick =>
    by_cases hcur : s.curdigit < c.n
    · have h2 : runOp c s PubOp.tick =
          (showDigit c s (if c.n ≤ s.curdigit + 1 then 0
              else s.curdigit + 1),
            showDigitEvs c s (if c.n ≤ s.curdigit + 1 then 0
              else s.curdigit + 1)) := by
        show tick c s = _
        simp only [tick, if_pos hcur]
      rw [h2]
      have h := showDigit_safe c s
        (if c.n ≤ s.curdigit + 1 then 0 else s.curdigit + 1) hwf hinv hn
      exact ⟨h.1, h.2, showDigit_Wf c s _ hwf, showDigit_digLines c s _⟩
    · have h2 : runOp c s PubOp.tick = (s, []) := by
        show tick c s = _
        simp only [tick, if_neg hcur]
      rw [h2]
      exact ⟨no_events_safe c s hinv, hinv, hwf, rfl⟩
  | blank b =>
    have h2 : runOp c s (PubOp.blank b) =
        (showDigit c s (if b then c.n else 0),
          showDigitEvs c s (if b then c.n else 0)) := rfl
    rw [h2]
    have h := showDigit_safe c s (if b then c.n else 0) hwf hinv hn
    exact ⟨h.1, h.2, showDigit_Wf c s _ hwf, showDigit_digLines c s _⟩
  | segs i bm sh => exact setSegments_safe c s i bm sh hwf hinv hn
  | num i v dp sh =>
    by_cases hg : i < c.n ∧ v ≤ 16
    · have h2 : runOp c s (PubOp.num i v dp sh) =
          setSegments c s i
            (segTable.getD v 0 ||| (if dp then 128 else 0)) sh := by
        show setNumber c s i v dp sh = _
        simp only [setNumber, if_pos hg]
      rw [h2]
      exact setSegments_safe c s i _ sh hwf hinv hn
    · have h2 : runOp c s (PubOp.num i v dp sh) = (s, []) := by
        show setNumber c s i v dp sh = _
        simp only [setNumber, if_neg hg]
      rw [h2]
      exact ⟨no_events_safe c s hinv, hinv, hwf, rfl⟩
  | value r v lz dp =>
    obtain ⟨hc1, hd1, hg1, hu1, he1, hl1⟩ := svLoop_frame c r lz dp c.n v s
    have h2 : runOp c s (PubOp.value r v lz dp) =
        ((svLoop c r lz dp c.n v s).1, (svLoop c r lz dp c.n v s).2.2) :=
      rfl
    rw [h2, he1]
    refine ⟨no_events_safe c s hinv, Inv_of_same c hd1 hc1 hinv,
      ⟨hl1.trans hwf.1, ?_, ?_⟩, ?_⟩
    · rw [hd1]; exact hwf.2.1
    · rw [hg1]; exact hwf.2.2
    · rw [hd1]; rfl
  | store i bm =>
    have h2 : runOp c s (PubOp.store i bm) = (bufWrite c s i bm, []) := rfl
    rw [h2]
    have hb1 : (bufWrite c s i bm).digLines = s.digLines := by
      by_cases hi : i < c.n <;> simp [bufWrite, hi]
    have hb2 : (bufWrite c s i bm).curdigit = s.curdigit := by
      by_cases hi : i < c.n <;> simp [bufWrite, hi]
    have hb3 : (bufWrite c s i bm).display.length = s.display.length := by
      by_cases hi : i < c.n <;> simp [bufWrite, hi]
    have hb4 : (bufWrite c s i bm).segLines = s.segLines := by
      by_cases hi : i < c.n <;> simp [bufWrite, hi]
    refine ⟨no_events_safe c s hinv, Inv_of_same c hb1 hb2 hinv,
      ⟨hb3.trans hwf.1, ?_, ?_⟩, ?_⟩
    · rw [hb1]; exact hwf.2.1
    · rw [hb4]; exact hwf.2.2
    · rw [hb1]; rfl

/-- The safety package for arbitrary sequences of public operations. -/
theorem runOps_safe (c : Cfg) (hn : c.n ≤ 256) :
    ∀ (ops : List PubOp) (s : St), Wf c s → Inv c s →
      (∀ p, p <+: (runOps c s ops).2 → AMO c (digAfter s.digLines p)) ∧
      Inv c (runOps c s ops).1 ∧ Wf c (runOps c s ops).1 ∧
      (runOps c s ops).1.digLines =
        digAfter s.digLines (runOps c s ops).2 := by
  intro ops
  induction ops with
  | nil =>
    intro s hwf hinv
    exact ⟨no_events_safe c s hinv, hinv, hwf, rfl⟩
  | cons op ops ih =>
    intro s hwf hinv
    obtain ⟨hpre1, hinv1, hwf1, hco1⟩ := runOp_safe c s op hwf hinv hn
    obtain ⟨hpre2, hinv2, hwf2, hco2⟩ := ih (runOp c s op).1 hwf1 hinv1
    refine ⟨?_, hinv2, hwf2, ?_⟩
    · intro p hp
      have hp' : p <+: (runOp c s op).2 ++
          (runOps c (runOp c s op).1 ops).2 := hp
      rcases prefix_append_split _ hp' with h | ⟨q, hq, rfl⟩
      · exact hpre1 p h
      · rw [digAfter_append, ← hco1]
        exact hpre2 q hq
    · show (runOps c (runOp c s op).1 ops).1.digLines =
        digAfter s.digLines
          ((runOp c s op).2 ++ (runOps c (runOp c s op).1 ops).2)
      rw [digAfter_append, ← hco1]
      exact hco2

/-! ## C2: write ordering and the single-lit-digit guarantee -/

/-- C2 (amended: digitCount restricted to at most 256, so that the byte
store into `_curdigit` faithfully records every in-range digit index):
when `showDigit` is invoked while a digit is shown (`curdigit < n`) with
a different in-range target, its write sequence is exactly: the current
digit line driven inactive first, then all segment lines written with the
target's pattern, and only then the target digit line driven active.
Consequently, from any well-formed state satisfying the driver's
invariant, after every prefix of the writes of any sequence of public
operations at most one digit-select line is driven active. -/
theorem C2_no_ghosting (c : Cfg) (s : St) (t : Nat) (hwf : Wf c s)
    (hinv : Inv c s) (hn : c.n ≤ 256) :
    (s.curdigit < c.n → t < c.n → t ≠ s.curdigit →
      showDigitEvs c s t = Ev.dig s.curdigit (!c.digiton) ::
        (segWrites c (s.display.getD t 0) ++ [Ev.dig t c.digiton])) ∧
    (∀ ops p, p <+: (runOps c s ops).2 →
      AMO c ((applyEvs p s).digLines)) := by
  constructor
  · intro hcur ht hne
    simp only [showDigitEvs, if_pos hcur, if_pos hne, if_pos ht]
    rfl
  · intro ops p hp
    rw [applyEvs_digLines]
    exact (runOps_safe c hn ops s hwf hinv).1 p hp

/-- Witness for C2: one tick from a state showing digit 0. -/
theorem C2_no_ghosting_witness :
    AMO cfgEx
      ((applyEvs (runOps cfgEx stShown [PubOp.tick]).2 stShown).digLines) :=
  (C2_no_ghosting cfgEx stShown 1 (by decide) (by decide) (by decide)).2
    [PubOp.tick] (runOps cfgEx stShown [PubOp.tick]).2
    (List.prefix_refl _)

set_option maxRecDepth 8000 in
/-- C2 counterexample against the unrestricted claim: on a 257-digit
display, from the well-formed invariant-satisfying state showing digit
255, the first tick energizes digit line 256 but the byte store records
the cursor as `(byte)256 = 0`; the second tick therefore de-energizes
line 0 — not line 256 — and energizes line 1, leaving digit lines 1 and
256 driven active at the same time. -/
theorem C2_counterexample :
    Wf cfg257 st257 ∧ Inv cfg257 st257 ∧
    activeL cfg257
      ((applyEvs (runOps cfg257 st257 [PubOp.tick, PubOp.tick]).2
        st257).digLines) 1 ∧
    activeL cfg257
      ((applyEvs (runOps cfg257 st257 [PubOp.tick, PubOp.tick]).2
        st257).digLines) 256 ∧
    ¬ ((1 : Nat) = 256) := by decide

end Display7Seg
